import Mathlib

/-!
# Verification of the qutebrowser browsing-history store

Shallow embedding of `qutebrowser/browser/history.py`: the `Entry` line
codec (`Entry.__str__` / `Entry.from_str`) and the `WebHistory` store
(`async_read`, `add_url`, `add_from_tab`, `save`, `clear`, `get_recent`).

External collaborators that are not part of the repository source are
modelled explicitly and documented at their definitions:
* Qt's `QUrl` (an external library class) is modelled by the canonical
  string it renders to (`QUrl.toString(FullyEncoded | RemovePassword)`),
  which the source calls "the URL as a lossless string";
* `lineparser.AppendLineParser` and `sql.SqlTable` are repository
  collaborators whose code is not in `src/`; they are modelled from the
  spec (§4.2 Append Log, §4.3 In-Memory Index).

Machine floats: `Entry.atime` is a Python float in the source, but every
claim under verification quantifies over integer-valued access times and
the codec truncates to `int` on encode, so access times are embedded as
`Int`.  The on-disk atime field is parsed with `float(...)` in the
source; the embedding parses decimal digit strings, the exact image of
the encoder (non-integer float literals on disk are outside every claim).
-/

instance {ε α : Type} [DecidableEq ε] [DecidableEq α] :
    DecidableEq (Except ε α) := fun x y =>
  match x, y with
  | .ok a, .ok b =>
    if h : a = b then .isTrue (by rw [h])
    else .isFalse (by intro hc; cases hc; exact h rfl)
  | .error a, .error b =>
    if h : a = b then .isTrue (by rw [h])
    else .isFalse (by intro hc; cases hc; exact h rfl)
  | .ok _, .error _ => .isFalse (by intro hc; cases hc)
  | .error _, .ok _ => .isFalse (by intro hc; cases hc)

/-- The characters Python's `str.split()` (no separator) and
`str.rstrip()` treat as whitespace, i.e. `str.isspace` /
`Py_UNICODE_ISSPACE`: the ASCII controls 0x09-0x0D, the file/group/
record/unit separators 0x1C-0x1F, space, NEL (0x85), NBSP (0xA0), the
Ogham space mark (0x1680), the Unicode spaces 0x2000-0x200A, the line
and paragraph separators (0x2028, 0x2029), the narrow NBSP (0x202F),
the medium mathematical space (0x205F) and the ideographic space
(0x3000). -/
def pyIsSpace (c : Char) : Bool :=
  decide ((9 ≤ c.toNat ∧ c.toNat ≤ 13) ∨ (28 ≤ c.toNat ∧ c.toNat ≤ 32)
    ∨ c.toNat = 133 ∨ c.toNat = 160 ∨ c.toNat = 5760
    ∨ (8192 ≤ c.toNat ∧ c.toNat ≤ 8202) ∨ c.toNat = 8232 ∨ c.toNat = 8233
    ∨ c.toNat = 8239 ∨ c.toNat = 8287 ∨ c.toNat = 12288)

/-- Python `line.split(maxsplit=2)` (whitespace separator) on a character
list: skip leading whitespace, take the first word, skip whitespace, take
the second word, skip whitespace, and keep the whole remainder (trailing
whitespace included) as the third field if non-empty. -/
def pySplitMax2 (cs : List Char) : List (List Char) :=
  let cs1 := cs.dropWhile pyIsSpace
  if cs1 = [] then []
  else
    let w1 := cs1.takeWhile (fun c => !pyIsSpace c)
    let r1 := (cs1.dropWhile (fun c => !pyIsSpace c)).dropWhile pyIsSpace
    if r1 = [] then [w1]
    else
      let w2 := r1.takeWhile (fun c => !pyIsSpace c)
      let r2 := (r1.dropWhile (fun c => !pyIsSpace c)).dropWhile pyIsSpace
      if r2 = [] then [w1, w2]
      else [w1, w2, r2]

/-- Python `s.split('-')` (no maxsplit) on a character list. -/
def splitOnDash : List Char → List (List Char)
  | [] => [[]]
  | c :: rest =>
    if c = '-' then [] :: splitOnDash rest
    else
      match splitOnDash rest with
      | [] => [[c]]
      | g :: gs => (c :: g) :: gs

/-- Python `s.rstrip()`: drop trailing whitespace. -/
def pyRstrip (s : String) : String :=
  String.mk ((s.data.reverse.dropWhile pyIsSpace).reverse)

/-- Decimal digit character for a value `< 10` (used by the embedding of
Python's `str(int(...))`). -/
def digitChar (n : Nat) : Char :=
  if n = 0 then '0' else if n = 1 then '1' else if n = 2 then '2'
  else if n = 3 then '3' else if n = 4 then '4' else if n = 5 then '5'
  else if n = 6 then '6' else if n = 7 then '7' else if n = 8 then '8'
  else '9'

/-- Accumulator loop of the decimal printer.  The first argument is
structural fuel (any bound `≥ n` yields the digits of `n`); fuel keeps
the definition kernel-reducible. -/
def natCharsAux : Nat → Nat → List Char → List Char
  | 0, _, acc => acc
  | _ + 1, 0, acc => acc
  | fuel + 1, n + 1, acc =>
    natCharsAux fuel ((n + 1) / 10) (digitChar ((n + 1) % 10) :: acc)

/-- Decimal digits of a natural number, embedding Python's `str(n)`. -/
def natChars (n : Nat) : List Char :=
  if n = 0 then ['0'] else natCharsAux n n []

/-- Decimal rendering of an integer, embedding Python's `str(int(a))`
for an integer-valued `a`. -/
def intChars (i : Int) : List Char :=
  if i < 0 then '-' :: natChars i.natAbs else natChars i.toNat

/-- Numeric value of a digit character. -/
def digitVal (c : Char) : Nat := c.toNat - 48

/-- ASCII decimal digit test (`'0' ≤ c ≤ '9'`). -/
def isDig (c : Char) : Bool := 48 ≤ c.toNat && c.toNat ≤ 57

/-- Parse a non-empty all-digit character list as a natural number.
This is the embedding of the source's `float(atime)` conversion,
restricted to the image of the encoder: the encoder only ever writes
plain decimal digit strings for the atime field, and every claim under
verification concerns such lines. -/
def parseNat (cs : List Char) : Option Nat :=
  if cs ≠ [] && cs.all isDig then
    some (cs.foldl (fun a c => a * 10 + digitVal c) 0)
  else none

/-- Model of Qt's `QUrl` as used by `history.py`.  The source keeps URLs
only to (a) validate them, (b) render them with
`toString(FullyEncoded | RemovePassword)` — "the URL as a lossless
string" (`Entry.url_str`) — and (c) query `scheme()`, `isEmpty()` and
`matches(·, no_formatting)`.  `QUrl` is an external Qt class, so the
model carries the canonical fully-encoded password-free string `s` the
source renders it to. -/
structure Url where
  s : String
deriving DecidableEq, Repr

/-- `QUrl.isValid`: the empty URL is invalid; a fully-encoded URL string
contains no raw whitespace.  (Approximation of Qt's syntactic URL
validation, restricted to the properties `history.py` relies on.) -/
def Url.isValid (u : Url) : Bool :=
  u.s ≠ "" && u.s.data.all (fun c => !pyIsSpace c)

/-- `QUrl.isEmpty`. -/
def Url.isEmpty (u : Url) : Bool := u.s = ""

/-- `QUrl.scheme`: the part before the first `:` (empty if there is no
`:`).  Approximation of Qt's scheme accessor, adequate for the `data:`
pseudo-scheme test the source performs. -/
def Url.scheme (u : Url) : String :=
  if u.s.data.contains ':' then String.mk (u.s.data.takeWhile (· ≠ ':'))
  else ""

/-- `QUrl.matches(other, QUrl.UrlFormattingOption(0))`: equality of the
two URLs with no formatting options applied — in the canonical-string
model, equality of the strings. -/
def Url.matches (u v : Url) : Bool := u.s == v.s

/-- `Entry`: one history record (`history.py`, class `Entry`).
`atime` is integer-valued (see the file header), `url` is the validated
URL, `redirect` marks an intermediate hop that is hidden in completion. -/
structure Entry where
  atime : Int
  url : Url
  title : String
  redirect : Bool
deriving DecidableEq, Repr

/-- `Entry.url_str()`: the lossless string form of the URL. -/
def Entry.urlStr (e : Entry) : String := e.url.s

/-- `Entry.__str__` at character level: `' '.join(elems)` where `elems`
is `[atime (+ "-r" if redirect), url]` plus the title iff it is
non-empty (Python truthiness of `self.title`). -/
def Entry.encodeChars (e : Entry) : List Char :=
  (intChars e.atime ++ (if e.redirect then ['-', 'r'] else []))
    ++ ' ' :: e.url.s.data
    ++ (if e.title = "" then [] else ' ' :: e.title.data)

/-- `Entry.__str__` / the spec's `encode`: the serialized history line. -/
def Entry.encode (e : Entry) : String := String.mk e.encodeChars

/-- Second half of `Entry.from_str`: given the split fields, validate
the URL, strip leading NUL bytes from the atime field, split off the
flags after `-` (Python's `atime.split('-')` unpacking into exactly two
parts, a `ValueError` otherwise), check the flags are a subset of
`{'r'}`, and parse the access time. -/
def Entry.fromFields (atimeS : List Char) (urlS : List Char)
    (title : List Char) : Except String Entry :=
  let url : Url := ⟨String.mk urlS⟩
  if !url.isValid then .error "Invalid URL"
  else
    let a0 := atimeS.dropWhile (· = '\x00')
    match splitOnDash a0 with
    | [a1] =>
      match parseNat a1 with
      | some n => .ok ⟨(n : Int), url, String.mk title, false⟩
      | none => .error "invalid atime literal"
    | [a1, flags] =>
      if flags.all (· = 'r') then
        match parseNat a1 with
        | some n => .ok ⟨(n : Int), url, String.mk title, flags.contains 'r'⟩
        | none => .error "invalid atime literal"
      else .error "Invalid flags"
    | _ => .error "too many values to unpack"

/-- `Entry.from_str` / the spec's `decode`: split the line into 2 or 3
whitespace-separated fields (2 fields means empty title), then parse the
fields. -/
def Entry.fromStr (line : String) : Except String Entry :=
  match pySplitMax2 line.data with
  | [a, u] => Entry.fromFields a u []
  | [a, u, t] => Entry.fromFields a u t
  | _ => .error "2 or 3 fields expected"

example : Entry.fromStr "12345-r http://example.com/ My Title"
    = .ok ⟨12345, ⟨"http://example.com/"⟩, "My Title", true⟩ := by decide

example : Entry.fromStr (Entry.encode ⟨123, ⟨"http://example.com/"⟩, " x", false⟩)
    = .ok ⟨123, ⟨"http://example.com/"⟩, "x", false⟩ := by decide

/-!
## The In-Memory Index and the Append Log (spec-modelled collaborators)
-/

/-- Modelled from the spec: the In-Memory Index (§4.3), i.e. the
`sql.SqlTable` base class of `WebHistory` (repository code not under
`src/`).  A keyed table with key = URL string and value = the latest
`Entry` for that key; `upsert` is insert-or-replace (`insert` with
`replace=True` on the `url` primary key).  The spec guarantees no
ordering across entries, so replacement is modelled as
filter-out-then-append. -/
def Index : Type := List (String × Entry)

instance : DecidableEq Index := by
  unfold Index; infer_instance

instance : Repr Index := by
  unfold Index; infer_instance

/-- Modelled from the spec (§4.3): `upsert(key, value)`,
insert-or-replace. -/
def Index.upsert (idx : Index) (k : String) (e : Entry) : Index :=
  (List.filter (fun p => p.1 ≠ k) idx) ++ [(k, e)]

/-- Modelled from the spec (§4.3): `get(key) -> value | absent`. -/
def Index.get (idx : Index) (k : String) : Option Entry :=
  (List.find? (fun p => p.1 = k) idx).map Prod.snd

/-- Modelled from the spec (§4.3): `len() -> count`. -/
def Index.size (idx : Index) : Nat := List.length idx

/-- All rows of the index whose key is `k` (for stating that a URL has
exactly one row). -/
def Index.rowsFor (idx : Index) (k : String) : List (String × Entry) :=
  List.filter (fun p => p.1 = k) idx

/-- The empty index (`delete_all` / initial state). -/
def Index.empty : Index := []

/-- Modelled from the spec: the Append Log (§4.2), i.e.
`lineparser.AppendLineParser` (repository code not under `src/`).
`data` is the sequence of lines of the backing file, `new_data` the
pending lines the next `save` call appends. -/
structure LineParser where
  data : List String
  new_data : List String
deriving DecidableEq, Repr

/-- Modelled from the spec (§4.2): `save` appends `new_data` to the
backing file (each line followed by a terminator) and resets it. -/
def LineParser.save (lp : LineParser) : LineParser :=
  ⟨lp.data ++ lp.new_data, []⟩

/-- Modelled from the spec (§4.2): `clear()` truncates the backing file
to empty; subsequent `get_recent` and reads observe no prior data. -/
def LineParser.clear (_lp : LineParser) : LineParser := ⟨[], []⟩

/-- Modelled from the spec (§4.2): `get_recent(n)` returns the most
recently appended lines; the bound `n` is abstracted away and the whole
line sequence returned (every claim under verification only needs
emptiness / contents, not the bound). -/
def LineParser.get_recent (lp : LineParser) : List String := lp.data

/-!
## The History Store (`WebHistory`)
-/

/-- The `WebHistory` store state (`history.py`, class `WebHistory`).
The `sql.SqlTable` superclass state is the `index` field; the
`AppendLineParser` collaborator is the `lineparser` field.  `warnings`
records the arguments of the `log.*.warning` calls the source makes
(one element per warning), so that "a logged warning" is statable;
`log.*.debug` messages are not modelled. -/
structure WebHistory where
  index : Index
  initial_read_started : Bool
  initial_read_done : Bool
  lineparser : LineParser
  temp_history : List Entry
  new_history : List Entry
  saved_count : Nat
  warnings : List String
deriving DecidableEq, Repr

/-- `WebHistory.__init__`: fresh store over a backing file whose current
contents are `disk`. -/
def WebHistory.init (disk : List String) : WebHistory :=
  ⟨Index.empty, false, false, ⟨disk, []⟩, [], [], 0, []⟩

/-- `WebHistory._add_entry`: insert the entry into the sql table with
`replace=True`, keyed by `entry.url_str()`. -/
def WebHistory.add_entry (h : WebHistory) (e : Entry) : WebHistory :=
  { h with index := h.index.upsert e.urlStr e }

/-- `WebHistory.add_url(url, title, redirect=..., atime=...)`.
The source defaults `atime` to `time.time()`; the embedding always
receives the access time explicitly (the caller passes the current
time).  An invalid URL is logged and ignored; otherwise the entry is
committed to the index and `new_history` when the initial read is done,
and buffered in `temp_history` otherwise. -/
def WebHistory.add_url (h : WebHistory) (url : Url) (title : String)
    (redirect : Bool) (atime : Int) : WebHistory :=
  if !url.isValid then
    { h with warnings := h.warnings ++ ["Ignoring invalid URL being added to history"] }
  else
    let e : Entry := ⟨atime, url, title, redirect⟩
    if h.initial_read_done then
      { h.add_entry e with new_history := h.new_history ++ [e] }
    else
      { h with temp_history := h.temp_history ++ [e] }

/-- `WebHistory.add_from_tab(url, requested_url, title)`: skip `data:`
URLs entirely, skip an empty displayed URL, record the requested URL as
a redirect entry when it is valid and differs from the displayed URL,
then record the displayed URL.  `now` is the current time both nested
`add_url` calls use. -/
def WebHistory.add_from_tab (h : WebHistory) (url requested_url : Url)
    (title : String) (now : Int) : WebHistory :=
  if url.scheme = "data" || requested_url.scheme = "data" then h
  else if url.isEmpty then h
  else
    let h1 :=
      if requested_url.isValid && !(requested_url.matches url) then
        h.add_url requested_url title true now
      else h
    h1.add_url url title false now

/-- `WebHistory.save`: set the Append Log's pending data to the encoded
suffix of `new_history` past `saved_count`, append it, and advance
`saved_count` to the full length. -/
def WebHistory.save (h : WebHistory) : WebHistory :=
  let lp := { h.lineparser with
              new_data := (h.new_history.drop h.saved_count).map Entry.encode }
  { h with lineparser := lp.save, saved_count := h.new_history.length }

/-- `WebHistory._do_clear`: clear the Append Log, delete all index rows,
clear both session lists, reset `saved_count` (the `cleared` signal
emission is an external notification). -/
def WebHistory.do_clear (h : WebHistory) : WebHistory :=
  { h with lineparser := h.lineparser.clear, index := Index.empty,
           temp_history := [], new_history := [], saved_count := 0 }

/-- `WebHistory.clear(force)`: clear immediately when `force` is set;
otherwise the source hands `_do_clear` to an external confirmation
prompt and the state is unchanged at call time (the affirmative callback
is `do_clear` itself). -/
def WebHistory.clear (h : WebHistory) (force : Bool) : WebHistory :=
  if force then h.do_clear else h

/-- `WebHistory.get_recent`: the Append Log's recent lines followed by
the encoded entries of the current session. -/
def WebHistory.get_recent (h : WebHistory) : List String :=
  h.lineparser.get_recent ++ h.new_history.map Entry.encode

/-- One loop iteration of `async_read` on a raw line: strip trailing
whitespace, skip blank lines, log and skip lines `Entry.from_str`
rejects, and `_add_entry` the decoded entry. -/
def WebHistory.processLine (h : WebHistory) (line : String) : WebHistory :=
  let l := pyRstrip line
  if l = "" then h
  else
    match Entry.fromStr l with
    | .error _ => { h with warnings := h.warnings ++ [l] }
    | .ok e => h.add_entry e

/-- The entry a raw line contributes during the streaming read:
`none` for blank or undecodable lines. -/
def decodeLine (line : String) : Option Entry :=
  let l := pyRstrip line
  if l = "" then none
  else
    match Entry.fromStr l with
    | .error _ => none
    | .ok e => some e

/-- One event of the streaming-load interleaving: either the generator
resumes and processes the next line of the file, or (at a suspension
point) a live `add_url` call runs. -/
inductive LoadEvent where
  | line (l : String)
  | add (url : Url) (title : String) (redirect : Bool) (atime : Int)
deriving DecidableEq, Repr

/-- Run a sequence of interleaved streaming-load events.  `async_read`
yields before processing each line, so `add_url` calls may run between
any two line-processing steps; this function folds an arbitrary such
interleaving over the state. -/
def WebHistory.runEvents (h : WebHistory) (evs : List LoadEvent) : WebHistory :=
  evs.foldl
    (fun acc ev =>
      match ev with
      | .line l => acc.processLine l
      | .add u t r a => acc.add_url u t r a)
    h

/-- Prologue of `async_read`: the double-call guard, then marking the
read as started (the actual line loop is `runEvents`). -/
def WebHistory.asyncReadStart (h : WebHistory) : WebHistory :=
  if h.initial_read_started then h
  else { h with initial_read_started := true }

/-- Epilogue of `async_read` after the line loop: mark the read done,
then drain `temp_history` in order, inserting each buffered entry into
the index and appending it to `new_history`, and clear the buffer.
(The `async_read_done` signal and the save-manager registration are
external notifications.) -/
def WebHistory.asyncReadFinish (h : WebHistory) : WebHistory :=
  let h1 := h.temp_history.foldl
    (fun acc e => { acc.add_entry e with new_history := acc.new_history ++ [e] })
    { h with initial_read_done := true }
  { h1 with temp_history := [] }

/-- A complete `async_read` invocation: if reading already started the
call returns at the guard with no state change; otherwise it marks the
read started, consumes the interleaving `evs` (whose `line` events are
the lines of the backing file, in order), and finishes. -/
def WebHistory.asyncReadRun (h : WebHistory) (evs : List LoadEvent) : WebHistory :=
  if h.initial_read_started then h
  else ((h.asyncReadStart).runEvents evs).asyncReadFinish

/-- A streaming load of the store's backing file with no interleaved
live adds. -/
def WebHistory.loadAll (h : WebHistory) : WebHistory :=
  h.asyncReadRun (h.lineparser.data.map LoadEvent.line)

/-- The entries that `add` events of an interleaving record (an invalid
URL is rejected without effect, so it records nothing). -/
def addedEntries (evs : List LoadEvent) : List Entry :=
  evs.filterMap
    (fun ev =>
      match ev with
      | .line _ => none
      | .add u t r a => if u.isValid then some ⟨a, u, t, r⟩ else none)

/-- The lines an interleaving feeds to the streaming read. -/
def linesOf (evs : List LoadEvent) : List String :=
  evs.filterMap
    (fun ev =>
      match ev with
      | .line l => some l
      | .add _ _ _ _ => none)

/-- The index effect of streaming a list of raw lines: last-write-wins
upsert of each decodable line, in file order. -/
def streamFold (idx : Index) (lines : List String) : Index :=
  lines.foldl
    (fun i l =>
      match decodeLine l with
      | some e => i.upsert e.urlStr e
      | none => i)
    idx

/-!
## Character and digit lemmas
-/

theorem char_ne_of_toNat {c d : Char} (h : c.toNat ≠ d.toNat) : c ≠ d :=
  fun e => h (congrArg Char.toNat e)

theorem isDig_bounds {c : Char} (h : isDig c = true) :
    48 ≤ c.toNat ∧ c.toNat ≤ 57 := by
  simpa [isDig] using h

theorem not_space_of_isDig {c : Char} (h : isDig c = true) :
    pyIsSpace c = false := by
  have hb := isDig_bounds h
  unfold pyIsSpace
  rw [decide_eq_false_iff_not]
  omega

theorem ne_dash_of_isDig {c : Char} (h : isDig c = true) : c ≠ '-' := by
  have hb := isDig_bounds h
  exact char_ne_of_toNat (by rw [show ('-').toNat = 45 from rfl]; omega)

theorem ne_nul_of_isDig {c : Char} (h : isDig c = true) : c ≠ '\x00' := by
  have hb := isDig_bounds h
  exact char_ne_of_toNat (by rw [show ('\x00').toNat = 0 from rfl]; omega)

theorem digitVal_digitChar {m : Nat} (h : m < 10) :
    digitVal (digitChar m) = m := by
  interval_cases m <;> decide

theorem isDig_digitChar {m : Nat} (h : m < 10) :
    isDig (digitChar m) = true := by
  interval_cases m <;> decide

/-!
## The decimal printer and its inverse
-/

theorem natCharsAux_acc (fuel : Nat) :
    ∀ (n : Nat) (acc : List Char),
      natCharsAux fuel n acc = natCharsAux fuel n [] ++ acc := by
  induction fuel with
  | zero => intro n acc; simp [natCharsAux]
  | succ f ih =>
    intro n acc
    cases n with
    | zero => simp [natCharsAux]
    | succ m =>
      show natCharsAux f ((m + 1) / 10) (digitChar ((m + 1) % 10) :: acc) = _
      rw [ih ((m + 1) / 10) (digitChar ((m + 1) % 10) :: acc),
          show natCharsAux (f + 1) (m + 1) []
             = natCharsAux f ((m + 1) / 10) [digitChar ((m + 1) % 10)] from rfl,
          ih ((m + 1) / 10) [digitChar ((m + 1) % 10)]]
      simp

theorem natCharsAux_digits (fuel : Nat) :
    ∀ n : Nat, n ≤ fuel → ∀ c ∈ natCharsAux fuel n [], isDig c = true := by
  induction fuel with
  | zero => intro n hn c hc; simp [natCharsAux] at hc
  | succ f ih =>
    intro n hn c hc
    cases n with
    | zero => simp [natCharsAux] at hc
    | succ m =>
      rw [show natCharsAux (f + 1) (m + 1) []
            = natCharsAux f ((m + 1) / 10) [digitChar ((m + 1) % 10)] from rfl,
          natCharsAux_acc] at hc
      rcases List.mem_append.mp hc with h1 | h1
      · have hq : (m + 1) / 10 ≤ f := by
          have := Nat.div_lt_self (Nat.succ_pos m) (show 1 < 10 by omega)
          omega
        exact ih ((m + 1) / 10) hq c h1
      · have hce : c = digitChar ((m + 1) % 10) := by simpa using h1
        rw [hce]
        exact isDig_digitChar (Nat.mod_lt _ (by omega))

/-- Value of a digit list under the decimal-accumulator fold. -/
def charsVal (cs : List Char) : Nat :=
  cs.foldl (fun a c => a * 10 + digitVal c) 0

theorem charsVal_natCharsAux (fuel : Nat) :
    ∀ n : Nat, n ≤ fuel → charsVal (natCharsAux fuel n []) = n := by
  induction fuel with
  | zero => intro n hn; interval_cases n; simp [natCharsAux, charsVal]
  | succ f ih =>
    intro n hn
    cases n with
    | zero => simp [natCharsAux, charsVal]
    | succ m =>
      rw [show natCharsAux (f + 1) (m + 1) []
            = natCharsAux f ((m + 1) / 10) [digitChar ((m + 1) % 10)] from rfl,
          natCharsAux_acc]
      unfold charsVal
      rw [List.foldl_append]
      have hq : (m + 1) / 10 ≤ f := by
        have := Nat.div_lt_self (Nat.succ_pos m) (show 1 < 10 by omega)
        omega
      have := ih ((m + 1) / 10) hq
      unfold charsVal at this
      rw [this]
      simp [digitVal_digitChar (Nat.mod_lt _ (show 0 < 10 by omega))]
      omega

theorem natCharsAux_ne_nil (fuel n : Nat) (hn : n ≤ fuel) (hpos : 0 < n) :
    natCharsAux fuel n [] ≠ [] := by
  cases fuel with
  | zero => omega
  | succ f =>
    cases n with
    | zero => omega
    | succ m =>
      rw [show natCharsAux (f + 1) (m + 1) []
            = natCharsAux f ((m + 1) / 10) [digitChar ((m + 1) % 10)] from rfl,
          natCharsAux_acc]
      simp

theorem natChars_digits {n : Nat} : ∀ c ∈ natChars n, isDig c = true := by
  intro c hc
  unfold natChars at hc
  by_cases h : n = 0
  · rw [h] at hc; simp at hc; rw [hc]; decide
  · rw [if_neg h] at hc
    exact natCharsAux_digits n n (Nat.le_refl n) c hc

theorem natChars_ne_nil (n : Nat) : natChars n ≠ [] := by
  unfold natChars
  by_cases h : n = 0
  · simp [h]
  · rw [if_neg h]
    exact natCharsAux_ne_nil n n (Nat.le_refl n) (Nat.pos_of_ne_zero h)

theorem parseNat_natChars (n : Nat) : parseNat (natChars n) = some n := by
  unfold parseNat
  rw [if_pos]
  · show some (charsVal (natChars n)) = some n
    congr 1
    unfold natChars
    by_cases h : n = 0
    · simp [h]; decide
    · rw [if_neg h]
      exact charsVal_natCharsAux n n (Nat.le_refl n)
  · refine Bool.and_eq_true_iff.mpr ⟨?_, ?_⟩
    · simpa using natChars_ne_nil n
    · exact List.all_eq_true.mpr (fun c hc => natChars_digits c hc)

/-!
## List splitting lemmas
-/

theorem takeWhile_append_stop {α : Type} (p : α → Bool) (l1 : List α)
    (c : α) (l2 : List α) (h : ∀ x ∈ l1, p x = true) (hc : p c = false) :
    (l1 ++ c :: l2).takeWhile p = l1 := by
  induction l1 with
  | nil => simp [List.takeWhile_cons, hc]
  | cons a t ih =>
    have ha : p a = true := h a (by simp)
    simp [List.takeWhile_cons, ha]
    exact ih (fun x hx => h x (by simp [hx]))

theorem dropWhile_append_stop {α : Type} (p : α → Bool) (l1 : List α)
    (c : α) (l2 : List α) (h : ∀ x ∈ l1, p x = true) (hc : p c = false) :
    (l1 ++ c :: l2).dropWhile p = c :: l2 := by
  induction l1 with
  | nil => simp [List.dropWhile_cons, hc]
  | cons a t ih =>
    have ha : p a = true := h a (by simp)
    simp [List.dropWhile_cons, ha]
    exact ih (fun x hx => h x (by simp [hx]))

theorem takeWhile_eq_self_of_all {α : Type} (p : α → Bool) (l : List α)
    (h : ∀ x ∈ l, p x = true) : l.takeWhile p = l := by
  induction l with
  | nil => rfl
  | cons a t ih =>
    rw [List.takeWhile_cons, if_pos (h a (by simp)),
        ih (fun x hx => h x (by simp [hx]))]

theorem dropWhile_eq_nil_of_all {α : Type} (p : α → Bool) (l : List α)
    (h : ∀ x ∈ l, p x = true) : l.dropWhile p = [] := by
  induction l with
  | nil => rfl
  | cons a t ih =>
    rw [List.dropWhile_cons, if_pos (h a (by simp)),
        ih (fun x hx => h x (by simp [hx]))]

theorem dropWhile_append_eq_self {α : Type} (p : α → Bool) (l1 l2 : List α)
    (h1 : l1 ≠ []) (h : ∀ x ∈ l1, p x = false) :
    (l1 ++ l2).dropWhile p = l1 ++ l2 := by
  cases l1 with
  | nil => exact absurd rfl h1
  | cons a t => simp [List.dropWhile_cons, h a (by simp)]

theorem dropWhile_eq_self_of_all {α : Type} (p : α → Bool) (l : List α)
    (h : ∀ x ∈ l, p x = false) : l.dropWhile p = l := by
  cases l with
  | nil => rfl
  | cons a t => simp [List.dropWhile_cons, h a (by simp)]

theorem dropWhile_eq_self_of_head {α : Type} (p : α → Bool) (l : List α)
    (h : ∀ c, l.head? = some c → p c = false) : l.dropWhile p = l := by
  cases l with
  | nil => rfl
  | cons a t => simp [List.dropWhile_cons, h a (by simp)]

theorem splitOnDash_no_dash (l : List Char) (h : ∀ c ∈ l, c ≠ '-') :
    splitOnDash l = [l] := by
  induction l with
  | nil => rfl
  | cons a t ih =>
    have ha : a ≠ '-' := h a (by simp)
    rw [show splitOnDash (a :: t) = if a = '-' then [] :: splitOnDash t
          else (match splitOnDash t with
                | [] => [[a]]
                | g :: gs => (a :: g) :: gs) from rfl,
        if_neg ha, ih (fun c hc => h c (by simp [hc]))]

theorem splitOnDash_append (l r : List Char) (h : ∀ c ∈ l, c ≠ '-') :
    splitOnDash (l ++ '-' :: r) = l :: splitOnDash r := by
  induction l with
  | nil =>
    show splitOnDash ('-' :: r) = [] :: splitOnDash r
    rw [show splitOnDash ('-' :: r) = if '-' = '-' then [] :: splitOnDash r
          else (match splitOnDash r with
                | [] => [['-']]
                | g :: gs => ('-' :: g) :: gs) from rfl,
        if_pos rfl]
  | cons a t ih =>
    have ha : a ≠ '-' := h a (by simp)
    show splitOnDash (a :: (t ++ '-' :: r)) = (a :: t) :: splitOnDash r
    rw [show splitOnDash (a :: (t ++ '-' :: r))
          = if a = '-' then [] :: splitOnDash (t ++ '-' :: r)
            else (match splitOnDash (t ++ '-' :: r) with
                  | [] => [[a]]
                  | g :: gs => (a :: g) :: gs) from rfl,
        if_neg ha, ih (fun c hc => h c (by simp [hc]))]

theorem string_eq_empty_iff {s : String} : s = "" ↔ s.data = [] := by
  constructor
  · intro h; subst h; rfl
  · intro h
    cases s with
    | mk d =>
      have hd : d = [] := h
      rw [hd]

/-!
## Splitting an encoded line
-/

theorem pySplitMax2_encode (A U T : List Char)
    (hA : A ≠ []) (hAns : ∀ c ∈ A, pyIsSpace c = false)
    (hU : U ≠ []) (hUns : ∀ c ∈ U, pyIsSpace c = false)
    (hT : ∀ c, T.head? = some c → pyIsSpace c = false) :
    pySplitMax2 (A ++ ' ' :: U ++ (if T = [] then [] else ' ' :: T))
      = if T = [] then [A, U] else [A, U, T] := by
  have hAns' : ∀ c ∈ A, (fun c => !pyIsSpace c) c = true :=
    fun c hc => by simp [hAns c hc]
  have hUns' : ∀ c ∈ U, (fun c => !pyIsSpace c) c = true :=
    fun c hc => by simp [hUns c hc]
  have hsp : (fun c => !pyIsSpace c) ' ' = false := by simp [pyIsSpace]
  by_cases hTe : T = []
  · rw [if_pos hTe, if_pos hTe, List.append_nil]
    have h0 : (A ++ ' ' :: U).dropWhile pyIsSpace = A ++ ' ' :: U :=
      dropWhile_append_eq_self pyIsSpace A (' ' :: U) hA hAns
    have hne : A ++ ' ' :: U ≠ [] := by simp
    have h1 : (A ++ ' ' :: U).takeWhile (fun c => !pyIsSpace c) = A :=
      takeWhile_append_stop _ A ' ' U hAns' hsp
    have h2 : (A ++ ' ' :: U).dropWhile (fun c => !pyIsSpace c) = ' ' :: U :=
      dropWhile_append_stop _ A ' ' U hAns' hsp
    have h3 : (' ' :: U).dropWhile pyIsSpace = U := by
      rw [List.dropWhile_cons, if_pos (show pyIsSpace ' ' = true from rfl)]
      exact dropWhile_eq_self_of_all pyIsSpace U hUns
    have h4 : U.takeWhile (fun c => !pyIsSpace c) = U :=
      takeWhile_eq_self_of_all _ U hUns'
    have h5 : U.dropWhile (fun c => !pyIsSpace c) = [] :=
      dropWhile_eq_nil_of_all _ U hUns'
    simp only [pySplitMax2, h0, h1, h2, h3, h4, h5, if_neg hne, if_neg hU,
               List.dropWhile_nil, if_pos rfl]
    simp
  · rw [if_neg hTe, if_neg hTe]
    have heq : (A ++ ' ' :: U) ++ ' ' :: T = A ++ ' ' :: (U ++ ' ' :: T) := by
      simp
    rw [heq]
    have h0 : (A ++ ' ' :: (U ++ ' ' :: T)).dropWhile pyIsSpace
        = A ++ ' ' :: (U ++ ' ' :: T) :=
      dropWhile_append_eq_self pyIsSpace A (' ' :: (U ++ ' ' :: T)) hA hAns
    have hne : A ++ ' ' :: (U ++ ' ' :: T) ≠ [] := by simp
    have h1 : (A ++ ' ' :: (U ++ ' ' :: T)).takeWhile (fun c => !pyIsSpace c) = A :=
      takeWhile_append_stop _ A ' ' (U ++ ' ' :: T) hAns' hsp
    have h2 : (A ++ ' ' :: (U ++ ' ' :: T)).dropWhile (fun c => !pyIsSpace c)
        = ' ' :: (U ++ ' ' :: T) :=
      dropWhile_append_stop _ A ' ' (U ++ ' ' :: T) hAns' hsp
    have h3 : (' ' :: (U ++ ' ' :: T)).dropWhile pyIsSpace = U ++ ' ' :: T := by
      rw [List.dropWhile_cons, if_pos (show pyIsSpace ' ' = true from rfl)]
      exact dropWhile_append_eq_self pyIsSpace U (' ' :: T) hU hUns
    have hne2 : U ++ ' ' :: T ≠ [] := by simp
    have h4 : (U ++ ' ' :: T).takeWhile (fun c => !pyIsSpace c) = U :=
      takeWhile_append_stop _ U ' ' T hUns' hsp
    have h5 : (U ++ ' ' :: T).dropWhile (fun c => !pyIsSpace c) = ' ' :: T :=
      dropWhile_append_stop _ U ' ' T hUns' hsp
    have h6 : (' ' :: T).dropWhile pyIsSpace = T := by
      rw [List.dropWhile_cons, if_pos (show pyIsSpace ' ' = true from rfl)]
      exact dropWhile_eq_self_of_head pyIsSpace T hT
    simp only [pySplitMax2, h0, h1, h2, h3, h4, h5, h6, if_neg hne,
               if_neg hne2, if_neg hTe]

theorem fromFields_encode (e : Entry) (hurl : e.url.isValid = true)
    (ha : 0 ≤ e.atime) (T : List Char) :
    Entry.fromFields
        (natChars e.atime.toNat ++ (if e.redirect then ['-', 'r'] else []))
        e.url.s.data T
      = .ok ⟨e.atime, e.url, String.mk T, e.redirect⟩ := by
  have hDdig : ∀ c ∈ natChars e.atime.toNat, isDig c = true :=
    fun c hc => natChars_digits c hc
  have hDnd : ∀ c ∈ natChars e.atime.toNat, c ≠ '-' :=
    fun c hc => ne_dash_of_isDig (hDdig c hc)
  have hDnul : ∀ c ∈ natChars e.atime.toNat, c ≠ '\x00' :=
    fun c hc => ne_nul_of_isDig (hDdig c hc)
  have hu : (⟨String.mk e.url.s.data⟩ : Url) = e.url := rfl
  cases hre : e.redirect with
  | false =>
    rw [if_neg (by simp), List.append_nil]
    simp only [Entry.fromFields, hu, hurl, Bool.not_true]
    rw [if_neg (by simp)]
    have hnul : (natChars e.atime.toNat).dropWhile (fun c => decide (c = '\x00'))
        = natChars e.atime.toNat :=
      dropWhile_eq_self_of_all _ _ (fun x hx => decide_eq_false (hDnul x hx))
    rw [hnul, splitOnDash_no_dash _ hDnd]
    show (match parseNat (natChars e.atime.toNat) with
          | some n => Except.ok (⟨(n : Int), e.url, String.mk T, false⟩ : Entry)
          | none => Except.error "invalid atime literal")
        = Except.ok ⟨e.atime, e.url, String.mk T, false⟩
    rw [parseNat_natChars]
    simp [Int.toNat_of_nonneg ha]
  | true =>
    rw [if_pos rfl]
    simp only [Entry.fromFields, hu, hurl, Bool.not_true]
    rw [if_neg (by simp)]
    have hnul : ((natChars e.atime.toNat) ++ ['-', 'r']).dropWhile
          (fun c => decide (c = '\x00'))
        = (natChars e.atime.toNat) ++ ['-', 'r'] := by
      apply dropWhile_eq_self_of_all
      intro x hx
      rcases List.mem_append.mp hx with h1 | h1
      · exact decide_eq_false (hDnul x h1)
      · rcases (by simpa using h1 : x = '-' ∨ x = 'r') with h | h <;>
          (rw [h]; decide)
    rw [hnul, splitOnDash_append _ ['r'] hDnd,
        show splitOnDash ['r'] = [['r']] from rfl]
    show (if List.all ['r'] (fun c => decide (c = 'r')) = true then
            (match parseNat (natChars e.atime.toNat) with
             | some n =>
               Except.ok
                 (⟨(n : Int), e.url, String.mk T, List.contains ['r'] 'r'⟩ : Entry)
             | none => Except.error "invalid atime literal")
          else Except.error "Invalid flags")
        = Except.ok ⟨e.atime, e.url, String.mk T, true⟩
    rw [if_pos (by decide), parseNat_natChars]
    simp [Int.toNat_of_nonneg ha]

/-- Claim C2 (amended): decode-after-encode round trip, for entries with
a valid URL, a nonnegative integer access time, and a title that does
not begin with a whitespace character. -/
theorem entry_roundtrip (e : Entry) (hurl : e.url.isValid = true)
    (ha : 0 ≤ e.atime)
    (ht : ∀ c, e.title.data.head? = some c → pyIsSpace c = false) :
    Entry.fromStr (Entry.encode e) = .ok e := by
  have hval := hurl
  simp only [Url.isValid, Bool.and_eq_true, decide_eq_true_eq,
             List.all_eq_true, Bool.not_eq_true'] at hval
  obtain ⟨hUne, hUns⟩ := hval
  have hU : e.url.s.data ≠ [] := fun hnil => hUne (string_eq_empty_iff.mpr hnil)
  have hi : intChars e.atime = natChars e.atime.toNat := by
    unfold intChars
    rw [if_neg (by omega)]
  have hDne : natChars e.atime.toNat ≠ [] := natChars_ne_nil _
  have hDns : ∀ c ∈ natChars e.atime.toNat, pyIsSpace c = false :=
    fun c hc => not_space_of_isDig (natChars_digits c hc)
  have hAne : natChars e.atime.toNat ++ (if e.redirect then ['-', 'r'] else [])
      ≠ [] := fun hnil => hDne (List.append_eq_nil.mp hnil).1
  have hAns : ∀ c ∈ natChars e.atime.toNat
        ++ (if e.redirect then ['-', 'r'] else []), pyIsSpace c = false := by
    intro c hc
    rcases List.mem_append.mp hc with h1 | h1
    · exact hDns c h1
    · cases hre : e.redirect
      · rw [hre] at h1; simp at h1
      · rw [hre] at h1
        rcases (by simpa using h1 : c = '-' ∨ c = 'r') with h | h <;>
          (rw [h]; decide)
  have htitle_if : (if e.title = "" then ([] : List Char)
        else ' ' :: e.title.data)
      = (if e.title.data = [] then [] else ' ' :: e.title.data) := by
    by_cases h : e.title = ""
    · rw [if_pos h, if_pos (string_eq_empty_iff.mp h)]
    · rw [if_neg h, if_neg (fun hd => h (string_eq_empty_iff.mpr hd))]
  have hdata : (Entry.encode e).data
      = (natChars e.atime.toNat ++ (if e.redirect then ['-', 'r'] else []))
          ++ ' ' :: e.url.s.data
          ++ (if e.title.data = [] then [] else ' ' :: e.title.data) := by
    show e.encodeChars = _
    unfold Entry.encodeChars
    rw [hi, htitle_if]
  have hsplit := pySplitMax2_encode
    (natChars e.atime.toNat ++ (if e.redirect then ['-', 'r'] else []))
    e.url.s.data e.title.data hAne hAns hU hUns ht
  unfold Entry.fromStr
  rw [hdata, hsplit]
  by_cases hTe : e.title.data = []
  · rw [if_pos hTe]
    show Entry.fromFields
        (natChars e.atime.toNat ++ (if e.redirect then ['-', 'r'] else []))
        e.url.s.data [] = Except.ok e
    rw [fromFields_encode e hurl ha []]
    have hTs : e.title = "" := string_eq_empty_iff.mpr hTe
    rw [show (String.mk [] : String) = "" from rfl, ← hTs]
  · rw [if_neg hTe]
    show Entry.fromFields
        (natChars e.atime.toNat ++ (if e.redirect then ['-', 'r'] else []))
        e.url.s.data e.title.data = Except.ok e
    rw [fromFields_encode e hurl ha e.title.data]

/-!
## Step characterizations of the store operations
-/

/-- Folding `_add_entry` over a list of entries (the drain loop of
`async_read` and the net index effect of a sequence of adds). -/
def foldAdd (idx : Index) (es : List Entry) : Index :=
  es.foldl (fun i e => i.upsert e.urlStr e) idx

/-- The warnings a single interleaving event logs. -/
def warningsOfEvent : LoadEvent → List String
  | .line l =>
    match decodeLine l with
    | some _ => []
    | none => if pyRstrip l = "" then [] else [pyRstrip l]
  | .add u _ _ _ =>
    if u.isValid then [] else ["Ignoring invalid URL being added to history"]

/-- The warnings an interleaving logs, in order. -/
def warningsOf : List LoadEvent → List String
  | [] => []
  | ev :: evs => warningsOfEvent ev ++ warningsOf evs

theorem processLine_eq (h : WebHistory) (l : String) :
    h.processLine l
      = { h with
          index := (match decodeLine l with
                    | some e => h.index.upsert e.urlStr e
                    | none => h.index),
          warnings := h.warnings ++ warningsOfEvent (.line l) } := by
  simp only [WebHistory.processLine, decodeLine, warningsOfEvent]
  by_cases h1 : pyRstrip l = ""
  · rw [if_pos h1, if_pos h1, if_pos h1]
    simp
  · rw [if_neg h1, if_neg h1, if_neg h1]
    cases hfs : Entry.fromStr (pyRstrip l) with
    | error msg => simp
    | ok e => simp [WebHistory.add_entry]

theorem add_url_not_done (h : WebHistory) (u : Url) (t : String) (r : Bool)
    (a : Int) (hdone : h.initial_read_done = false) :
    h.add_url u t r a
      = { h with
          temp_history := h.temp_history
            ++ (if u.isValid then [⟨a, u, t, r⟩] else []),
          warnings := h.warnings
            ++ (if u.isValid then []
                else ["Ignoring invalid URL being added to history"]) } := by
  unfold WebHistory.add_url
  by_cases hv : u.isValid = true
  · rw [hv]
    simp [hdone]
  · have hv2 : u.isValid = false := by
      cases hb : u.isValid
      · rfl
      · exact absurd hb hv
    rw [hv2]
    simp

theorem addedEntries_nil : addedEntries [] = [] := rfl

theorem addedEntries_cons_line (l : String) (evs : List LoadEvent) :
    addedEntries (.line l :: evs) = addedEntries evs := by
  simp [addedEntries]

theorem addedEntries_cons_add (u : Url) (t : String) (r : Bool) (a : Int)
    (evs : List LoadEvent) :
    addedEntries (.add u t r a :: evs)
      = (if u.isValid then [(⟨a, u, t, r⟩ : Entry)] else [])
          ++ addedEntries evs := by
  by_cases hv : u.isValid = true
  · simp [addedEntries, hv]
  · have hv2 : u.isValid = false := by
      cases hb : u.isValid
      · rfl
      · exact absurd hb hv
    simp [addedEntries, hv2]

theorem linesOf_nil : linesOf [] = [] := rfl

theorem linesOf_cons_line (l : String) (evs : List LoadEvent) :
    linesOf (.line l :: evs) = l :: linesOf evs := by
  simp [linesOf]

theorem linesOf_cons_add (u : Url) (t : String) (r : Bool) (a : Int)
    (evs : List LoadEvent) :
    linesOf (.add u t r a :: evs) = linesOf evs := by
  simp [linesOf]

theorem runEvents_fields (evs : List LoadEvent) :
    ∀ s : WebHistory, s.initial_read_done = false →
      s.runEvents evs
        = { s with
            index := streamFold s.index (linesOf evs),
            temp_history := s.temp_history ++ addedEntries evs,
            warnings := s.warnings ++ warningsOf evs } := by
  induction evs with
  | nil =>
    intro s hdone
    simp [WebHistory.runEvents, streamFold, linesOf, addedEntries, warningsOf]
  | cons ev evs ih =>
    intro s hdone
    cases ev with
    | line l =>
      have hd2 : (s.processLine l).initial_read_done = false := by
        rw [processLine_eq]; exact hdone
      have hrun : s.runEvents (.line l :: evs) = (s.processLine l).runEvents evs :=
        rfl
      rw [hrun, ih (s.processLine l) hd2, processLine_eq,
          linesOf_cons_line, addedEntries_cons_line]
      simp [streamFold, warningsOf]
    | add u t r a =>
      have hd2 : (s.add_url u t r a).initial_read_done = false := by
        rw [add_url_not_done s u t r a hdone]; exact hdone
      have hrun : s.runEvents (.add u t r a :: evs)
          = (s.add_url u t r a).runEvents evs := rfl
      rw [hrun, ih (s.add_url u t r a) hd2, add_url_not_done s u t r a hdone,
          linesOf_cons_add, addedEntries_cons_add]
      simp [warningsOf, warningsOfEvent]

theorem drain_fold (ts : List Entry) :
    ∀ acc : WebHistory,
      ts.foldl
          (fun acc e =>
            { acc.add_entry e with new_history := acc.new_history ++ [e] })
          acc
        = { acc with index := foldAdd acc.index ts,
                     new_history := acc.new_history ++ ts } := by
  induction ts with
  | nil => intro acc; simp [foldAdd]
  | cons e ts ih =>
    intro acc
    rw [List.foldl_cons, ih]
    simp [WebHistory.add_entry, foldAdd]

theorem asyncReadFinish_spec (h : WebHistory) :
    h.asyncReadFinish
      = { h with initial_read_done := true,
                 index := foldAdd h.index h.temp_history,
                 new_history := h.new_history ++ h.temp_history,
                 temp_history := [] } := by
  unfold WebHistory.asyncReadFinish
  rw [drain_fold]

theorem asyncReadStart_not_started (h : WebHistory)
    (hs : h.initial_read_started = false) :
    h.asyncReadStart = { h with initial_read_started := true } := by
  unfold WebHistory.asyncReadStart
  rw [if_neg (by rw [hs]; exact Bool.false_ne_true)]

theorem linesOf_map_line (ls : List String) :
    linesOf (ls.map LoadEvent.line) = ls := by
  induction ls with
  | nil => rfl
  | cons l ls ih => rw [List.map_cons, linesOf_cons_line, ih]

theorem addedEntries_map_line (ls : List String) :
    addedEntries (ls.map LoadEvent.line) = [] := by
  induction ls with
  | nil => rfl
  | cons l ls ih => rw [List.map_cons, addedEntries_cons_line, ih]

theorem loadAll_spec (disk : List String) :
    (WebHistory.init disk).loadAll
      = { index := streamFold Index.empty disk,
          initial_read_started := true,
          initial_read_done := true,
          lineparser := ⟨disk, []⟩,
          temp_history := [],
          new_history := [],
          saved_count := 0,
          warnings := warningsOf (disk.map LoadEvent.line) } := by
  unfold WebHistory.loadAll WebHistory.asyncReadRun
  rw [if_neg (show ¬(WebHistory.init disk).initial_read_started = true from
        by exact Bool.false_ne_true)]
  rw [asyncReadStart_not_started _ rfl]
  rw [runEvents_fields _ _ rfl]
  rw [asyncReadFinish_spec]
  simp [WebHistory.init, linesOf_map_line, addedEntries_map_line, foldAdd]

/-!
## Index lemmas and last-write-wins over a streamed log
-/

theorem filter_eq_nil_of_filter_ne (idx : List (String × Entry)) (k : String) :
    List.filter (fun p => p.1 = k) (List.filter (fun p => p.1 ≠ k) idx)
      = [] := by
  induction idx with
  | nil => rfl
  | cons a t ih =>
    by_cases h : a.1 = k
    · simp [List.filter_cons, h, ih]
    · simp [List.filter_cons, h, ih]

theorem filter_eq_of_filter_ne (idx : List (String × Entry)) (k k' : String)
    (hkk : k ≠ k') :
    List.filter (fun p => p.1 = k) (List.filter (fun p => p.1 ≠ k') idx)
      = List.filter (fun p => p.1 = k) idx := by
  induction idx with
  | nil => rfl
  | cons a t ih =>
    simp only [ne_eq, decide_not] at ih ⊢
    by_cases h : a.1 = k'
    · have h2 : ¬(a.1 = k) := fun hk => hkk (hk ▸ h)
      have hkn : ¬(k' = k) := fun hh => hkk hh.symm
      simp [List.filter_cons, h, h2, hkn, ih, -List.filter_filter]
    · simp [List.filter_cons, h, ih, -List.filter_filter]

theorem rowsFor_upsert (idx : Index) (k' k : String) (e : Entry) :
    Index.rowsFor (Index.upsert idx k' e) k
      = if k' = k then [(k', e)] else Index.rowsFor idx k := by
  unfold Index.upsert Index.rowsFor
  rw [List.filter_append]
  by_cases hk : k' = k
  · subst hk
    rw [if_pos rfl, filter_eq_nil_of_filter_ne]
    simp
  · rw [if_neg hk, filter_eq_of_filter_ne _ _ _ (fun h => hk h.symm)]
    simp [hk]

theorem get_eq_head_rowsFor (idx : Index) (k : String) :
    Index.get idx k = (Index.rowsFor idx k).head?.map Prod.snd := by
  unfold Index.get Index.rowsFor
  induction idx with
  | nil => rfl
  | cons a t ih =>
    by_cases h : a.1 = k
    · simp [List.find?_cons, List.filter_cons, h]
    · simp [List.find?_cons, List.filter_cons, h, ih]

/-- One step of the "latest entry for key `k`" scan. -/
def lastHitStep (k : String) (acc : Option Entry) (l : String) : Option Entry :=
  match decodeLine l with
  | some e => if e.urlStr = k then some e else acc
  | none => acc

/-- The entry decoded from the last line of `lines` whose URL key is `k`
(`none` if no line decodes to that key). -/
def lastHit (lines : List String) (k : String) : Option Entry :=
  lines.foldl (lastHitStep k) none

theorem lastHit_acc (k : String) (lines : List String) :
    ∀ a : Option Entry,
      lines.foldl (lastHitStep k) a
        = match lastHit lines k with
          | some e => some e
          | none => a := by
  induction lines with
  | nil => intro a; rfl
  | cons l ls ih =>
    intro a
    rw [List.foldl_cons, ih (lastHitStep k a l),
        show lastHit (l :: ls) k
          = List.foldl (lastHitStep k) (lastHitStep k none l) ls from rfl,
        ih (lastHitStep k none l)]
    cases hfold : lastHit ls k with
    | some e => rfl
    | none =>
      show lastHitStep k a l
          = match lastHitStep k none l with
            | some e => some e
            | none => a
      unfold lastHitStep
      cases hd : decodeLine l with
      | none => rfl
      | some e =>
        show (if e.urlStr = k then some e else a)
            = match (if e.urlStr = k then some e else none) with
              | some e2 => some e2
              | none => a
        by_cases hk : e.urlStr = k
        · rw [if_pos hk, if_pos hk]
        · rw [if_neg hk, if_neg hk]

theorem rowsFor_streamFold (lines : List String) :
    ∀ (idx : Index) (k : String),
      Index.rowsFor (streamFold idx lines) k
        = match lastHit lines k with
          | some e => [(k, e)]
          | none => Index.rowsFor idx k := by
  induction lines with
  | nil => intro idx k; rfl
  | cons l ls ih =>
    intro idx k
    have h1 : streamFold idx (l :: ls)
        = streamFold (match decodeLine l with
                      | some e => idx.upsert e.urlStr e
                      | none => idx) ls := rfl
    have h2 : lastHit (l :: ls) k
        = match lastHit ls k with
          | some e => some e
          | none => lastHitStep k none l := by
      rw [show lastHit (l :: ls) k
            = List.foldl (lastHitStep k) (lastHitStep k none l) ls from rfl,
          lastHit_acc k ls (lastHitStep k none l)]
    rw [h1, ih, h2]
    cases hfold : lastHit ls k with
    | some e => rfl
    | none =>
      show Index.rowsFor
            (match decodeLine l with
             | some e => idx.upsert e.urlStr e
             | none => idx) k
          = match lastHitStep k none l with
            | some e => [(k, e)]
            | none => Index.rowsFor idx k
      unfold lastHitStep
      cases hd : decodeLine l with
      | none => rfl
      | some e =>
        show Index.rowsFor (idx.upsert e.urlStr e) k
            = match (if e.urlStr = k then some e else none) with
              | some e2 => [(k, e2)]
              | none => Index.rowsFor idx k
        by_cases hk : e.urlStr = k
        · rw [if_pos hk, rowsFor_upsert, if_pos hk, hk]
        · rw [if_neg hk, rowsFor_upsert, if_neg hk]

theorem foldl_lastHitStep_no_hit (k : String) (post : List String)
    (h : ∀ l ∈ post, ∀ e, decodeLine l = some e → e.urlStr ≠ k) :
    ∀ a, post.foldl (lastHitStep k) a = a := by
  induction post with
  | nil => intro a; rfl
  | cons l ls ih =>
    intro a
    rw [List.foldl_cons]
    have hstep : lastHitStep k a l = a := by
      unfold lastHitStep
      cases hd : decodeLine l with
      | none => rfl
      | some e =>
        show (if e.urlStr = k then some e else a) = a
        rw [if_neg (h l (by simp) e hd)]
    rw [hstep]
    exact ih (fun l2 hl2 e he => h l2 (by simp [hl2]) e he) a

/-!
## Claim theorems
-/

/-- Claim C3: `save` appends to the Append Log exactly the encoded
entries of `new_history` from index `saved_count` onward, sets
`saved_count` to the length of `new_history`, leaves `new_history`
untouched, and consequently a second `save` with no intervening add
appends nothing. -/
theorem save_appends_unsaved_suffix (h : WebHistory) :
    h.save.lineparser.data
        = h.lineparser.data
            ++ (h.new_history.drop h.saved_count).map Entry.encode
      ∧ h.save.saved_count = h.new_history.length
      ∧ h.save.new_history = h.new_history
      ∧ h.save.save.lineparser.data = h.save.lineparser.data := by
  refine ⟨rfl, rfl, rfl, ?_⟩
  simp [WebHistory.save, LineParser.save, List.drop_length]

/-- Claim C7: after `clear` with `force = true`, `get_recent` is empty,
the index has size 0, both session lists are empty, `saved_count` is 0,
and a subsequent `save` appends nothing (the log stays empty). -/
theorem clear_resets_state (h : WebHistory) :
    (h.clear true).get_recent = []
      ∧ Index.size (h.clear true).index = 0
      ∧ (h.clear true).temp_history = []
      ∧ (h.clear true).new_history = []
      ∧ (h.clear true).saved_count = 0
      ∧ (h.clear true).save.lineparser.data = (h.clear true).lineparser.data
      ∧ (h.clear true).save.lineparser.data = [] := by
  exact ⟨rfl, rfl, rfl, rfl, rfl, rfl, rfl⟩

/-- Claim C9: a second `async_read` invocation while reading has already
started (hence also when it has completed, since nothing ever resets
`initial_read_started`) returns at the guard: no state change at all,
whatever interleaving it would otherwise have consumed. -/
theorem async_read_second_call_noop (h : WebHistory) (evs : List LoadEvent)
    (hs : h.initial_read_started = true) :
    h.asyncReadRun evs = h := by
  unfold WebHistory.asyncReadRun
  rw [if_pos hs]

theorem async_read_second_call_noop_witness :
    ((WebHistory.init ["1 http://a/ x"]).loadAll).initial_read_started = true
      ∧ ((WebHistory.init ["1 http://a/ x"]).loadAll).asyncReadRun
          [LoadEvent.line "1 http://a/ x"]
        = (WebHistory.init ["1 http://a/ x"]).loadAll :=
  ⟨by decide, async_read_second_call_noop _ _ (by decide)⟩

/-- Claim C5, counterexample: `add_url` performs no `data:`-scheme check
— a `data:` URL passed directly to `add_url` is recorded (here: buffered
in `temp_history`), so the claim that every `add` of a `data:` URL has
no effect is false on the code. -/
theorem add_url_records_data_url :
    (⟨"data:text/plain,x"⟩ : Url).scheme = "data"
      ∧ ((WebHistory.init []).add_url ⟨"data:text/plain,x"⟩ "t" false 0).temp_history
          = [⟨0, ⟨"data:text/plain,x"⟩, "t", false⟩] := by
  constructor
  · decide
  · decide

/-- Claim C5 (amended): the `data:`-scheme check lives in
`add_from_tab`, not `add_url`: a call to `add_from_tab` in which either
the displayed or the requested URL uses the `data:` pseudo-scheme is
ignored entirely (no state change); direct `add_url` calls perform no
such check. -/
theorem add_from_tab_ignores_data_urls (h : WebHistory)
    (url requested : Url) (t : String) (now : Int)
    (hd : url.scheme = "data" ∨ requested.scheme = "data") :
    h.add_from_tab url requested t now = h := by
  unfold WebHistory.add_from_tab
  rcases hd with hd | hd
  · rw [if_pos (by rw [hd]; simp)]
  · rw [if_pos (by rw [hd]; simp)]

theorem add_from_tab_ignores_data_urls_witness :
    ((⟨"data:text/plain,x"⟩ : Url).scheme = "data"
        ∨ (⟨"http://a/"⟩ : Url).scheme = "data")
      ∧ (WebHistory.init []).add_from_tab ⟨"data:text/plain,x"⟩ ⟨"http://a/"⟩ "t" 3
          = WebHistory.init [] :=
  ⟨by decide, add_from_tab_ignores_data_urls _ _ _ _ _ (by decide)⟩

theorem add_url_done (h : WebHistory) (u : Url) (t : String) (r : Bool)
    (a : Int) (hdone : h.initial_read_done = true) (hv : u.isValid = true) :
    h.add_url u t r a
      = { h with index := h.index.upsert u.s ⟨a, u, t, r⟩,
                 new_history := h.new_history ++ [⟨a, u, t, r⟩] } := by
  unfold WebHistory.add_url
  rw [hv]
  simp [hdone, WebHistory.add_entry, Entry.urlStr]

/-- Claim C6: `add_from_tab(A, B, title)` with distinct valid non-`data:`
URLs `A` (displayed) and `B` (requested) performs exactly the two
`add_url` calls — `B` as a `redirect = true` entry first, then `A` as a
`redirect = false` entry — appending exactly those two entries to the
buffer (load not done) or to the index and `new_history` (load done);
and a call whose displayed URL is empty is a complete no-op. -/
theorem add_from_tab_redirect_pair (h : WebHistory) (A B : Url) (t : String)
    (now : Int) (hA : A.isValid = true) (hB : B.isValid = true)
    (hne : B.s ≠ A.s) (hdA : A.scheme ≠ "data") (hdB : B.scheme ≠ "data") :
    (h.add_from_tab A B t now
        = (h.add_url B t true now).add_url A t false now)
      ∧ (h.initial_read_done = false →
          h.add_from_tab A B t now
            = { h with temp_history := h.temp_history
                  ++ [⟨now, B, t, true⟩, ⟨now, A, t, false⟩] })
      ∧ (h.initial_read_done = true →
          h.add_from_tab A B t now
            = { h with
                index := (h.index.upsert B.s ⟨now, B, t, true⟩).upsert A.s
                  ⟨now, A, t, false⟩,
                new_history := h.new_history
                  ++ [⟨now, B, t, true⟩, ⟨now, A, t, false⟩] })
      ∧ (∀ (h2 : WebHistory) (A2 B2 : Url) (t2 : String) (n2 : Int),
          A2.isEmpty = true → h2.add_from_tab A2 B2 t2 n2 = h2) := by
  have hAe : A.s ≠ "" := by
    have := hA
    simp only [Url.isValid, Bool.and_eq_true, decide_eq_true_eq] at this
    exact this.1
  have hmain : h.add_from_tab A B t now
      = (h.add_url B t true now).add_url A t false now := by
    unfold WebHistory.add_from_tab
    rw [if_neg (by simp [hdA, hdB]), if_neg (by simp [Url.isEmpty, hAe]),
        if_pos (by simp [hB, Url.matches, hne])]
  refine ⟨hmain, ?_, ?_, ?_⟩
  · intro hdone
    rw [hmain]
    simp [WebHistory.add_url, hA, hB, hdone]
  · intro hdone
    rw [hmain]
    simp [WebHistory.add_url, hA, hB, hdone, WebHistory.add_entry, Entry.urlStr]
  · intro h2 A2 B2 t2 n2 hempty
    unfold WebHistory.add_from_tab
    by_cases hc : (decide (A2.scheme = "data") || decide (B2.scheme = "data"))
        = true
    · rw [if_pos hc]
    · rw [if_neg hc, if_pos hempty]

theorem add_from_tab_redirect_pair_witness :
    (WebHistory.init []).add_from_tab ⟨"http://a/"⟩ ⟨"http://b/"⟩ "t" 7
      = (((WebHistory.init []).add_url ⟨"http://b/"⟩ "t" true 7).add_url
          ⟨"http://a/"⟩ "t" false 7) :=
  (add_from_tab_redirect_pair (WebHistory.init []) ⟨"http://a/"⟩ ⟨"http://b/"⟩
    "t" 7 (by decide) (by decide) (by decide) (by decide) (by decide)).1

/-- Claim C1: for any interleaving `evs` of line-processing steps and
live `add_url` calls run by a fresh `async_read`, (a) after every prefix
of the interleaving, `new_history` is unchanged, the index holds exactly
the streamed lines' effect (no add touched it), and the buffered entries
sit in `temp_history` in call order; (b) when the read completes, the
buffered entries are drained — each exactly once, in original order —
into `new_history` and upserted into the index, and the buffer is
emptied. -/
theorem streaming_adds_buffered (h0 : WebHistory) (evs : List LoadEvent)
    (hstarted : h0.initial_read_started = false)
    (hdone : h0.initial_read_done = false) :
    (∀ n : Nat,
        ((h0.asyncReadStart).runEvents (evs.take n)).new_history
            = h0.new_history
          ∧ ((h0.asyncReadStart).runEvents (evs.take n)).index
              = streamFold h0.index (linesOf (evs.take n))
          ∧ ((h0.asyncReadStart).runEvents (evs.take n)).temp_history
              = h0.temp_history ++ addedEntries (evs.take n))
      ∧ (h0.asyncReadRun evs).new_history
          = h0.new_history ++ (h0.temp_history ++ addedEntries evs)
      ∧ (h0.asyncReadRun evs).index
          = foldAdd (streamFold h0.index (linesOf evs))
              (h0.temp_history ++ addedEntries evs)
      ∧ (h0.asyncReadRun evs).temp_history = [] := by
  have hstart := asyncReadStart_not_started h0 hstarted
  constructor
  · intro n
    rw [hstart, runEvents_fields (evs.take n)
          { h0 with initial_read_started := true } hdone]
    exact ⟨rfl, rfl, rfl⟩
  · unfold WebHistory.asyncReadRun
    rw [if_neg (by rw [hstarted]; exact Bool.false_ne_true)]
    rw [hstart, runEvents_fields evs
          { h0 with initial_read_started := true } hdone, asyncReadFinish_spec]
    exact ⟨rfl, rfl, rfl⟩

theorem streaming_adds_buffered_witness :
    ((WebHistory.init ["1 http://a/ x"]).asyncReadRun
          [LoadEvent.add ⟨"http://b/"⟩ "t" false 5,
           LoadEvent.line "1 http://a/ x"]).new_history
      = (WebHistory.init ["1 http://a/ x"]).new_history
          ++ ((WebHistory.init ["1 http://a/ x"]).temp_history
                ++ addedEntries
                    [LoadEvent.add ⟨"http://b/"⟩ "t" false 5,
                     LoadEvent.line "1 http://a/ x"]) :=
  (streaming_adds_buffered (WebHistory.init ["1 http://a/ x"])
    [LoadEvent.add ⟨"http://b/"⟩ "t" false 5, LoadEvent.line "1 http://a/ x"]
    (by decide) (by decide)).2.1

theorem lastHitStep_hit (k : String) (a : Option Entry) (l : String)
    (e : Entry) (hd : decodeLine l = some e) (hke : e.urlStr = k) :
    lastHitStep k a l = some e := by
  unfold lastHitStep
  rw [hd]
  show (if e.urlStr = k then some e else a) = some e
  rw [if_pos hke]

/-- Claim C4: loading a log that contains two decodable lines with the
same URL key — with no later line for that key — leaves exactly one
index row for that URL, the one decoded from the later line in file
order (last-write-wins upsert). -/
theorem dedup_last_line_wins (pre mid post : List String) (l1 l2 : String)
    (e1 e2 : Entry) (_h1 : decodeLine l1 = some e1)
    (h2 : decodeLine l2 = some e2) (_hk : e1.urlStr = e2.urlStr)
    (hpost : ∀ l ∈ post, ∀ e, decodeLine l = some e → e.urlStr ≠ e2.urlStr) :
    Index.rowsFor
        ((WebHistory.init (pre ++ l1 :: mid ++ l2 :: post)).loadAll).index
        e2.urlStr
      = [(e2.urlStr, e2)]
      ∧ Index.get
          ((WebHistory.init (pre ++ l1 :: mid ++ l2 :: post)).loadAll).index
          e2.urlStr
        = some e2 := by
  have hidx : ((WebHistory.init (pre ++ l1 :: mid ++ l2 :: post)).loadAll).index
      = streamFold Index.empty (pre ++ l1 :: mid ++ l2 :: post) := by
    rw [loadAll_spec]
  have hlast : lastHit (pre ++ l1 :: mid ++ l2 :: post) e2.urlStr = some e2 := by
    unfold lastHit
    rw [List.foldl_append, List.foldl_cons, List.foldl_append, List.foldl_cons,
        lastHitStep_hit e2.urlStr _ l2 e2 h2 rfl]
    exact foldl_lastHitStep_no_hit e2.urlStr post hpost (some e2)
  have hrows := rowsFor_streamFold (pre ++ l1 :: mid ++ l2 :: post)
    Index.empty e2.urlStr
  rw [hlast] at hrows
  constructor
  · rw [hidx, hrows]
  · rw [hidx, get_eq_head_rowsFor, hrows]
    rfl

theorem dedup_last_line_wins_witness :
    Index.rowsFor
        ((WebHistory.init
            ([] ++ "1 http://a/ x" :: [] ++ "2 http://a/ y" :: [])).loadAll).index
        (⟨2, ⟨"http://a/"⟩, "y", false⟩ : Entry).urlStr
      = [((⟨2, ⟨"http://a/"⟩, "y", false⟩ : Entry).urlStr,
          ⟨2, ⟨"http://a/"⟩, "y", false⟩)] :=
  (dedup_last_line_wins [] [] [] "1 http://a/ x" "2 http://a/ y"
    ⟨1, ⟨"http://a/"⟩, "x", false⟩ ⟨2, ⟨"http://a/"⟩, "y", false⟩
    (by decide) (by decide) (by decide) (by decide)).1

/-- Claim C8: a log with one undecodable (non-blank) line between two
decodable lines with distinct URL keys loads to completion with both
valid entries in the index (size 2), the bad line logged as a warning,
and — in general — no decode failure ever prevents a load from
completing. -/
theorem malformed_line_skipped (l1 lbad l2 : String) (e1 e2 : Entry)
    (h1 : decodeLine l1 = some e1) (h2 : decodeLine l2 = some e2)
    (hbadne : pyRstrip lbad ≠ "") (hbad : decodeLine lbad = none)
    (hkeys : e1.urlStr ≠ e2.urlStr) :
    ((WebHistory.init [l1, lbad, l2]).loadAll).initial_read_done = true
      ∧ Index.size ((WebHistory.init [l1, lbad, l2]).loadAll).index = 2
      ∧ Index.get ((WebHistory.init [l1, lbad, l2]).loadAll).index e1.urlStr
          = some e1
      ∧ Index.get ((WebHistory.init [l1, lbad, l2]).loadAll).index e2.urlStr
          = some e2
      ∧ ((WebHistory.init [l1, lbad, l2]).loadAll).warnings = [pyRstrip lbad]
      ∧ (∀ lines : List String,
           ((WebHistory.init lines).loadAll).initial_read_done = true) := by
  have hidx : streamFold Index.empty [l1, lbad, l2]
      = [(e1.urlStr, e1), (e2.urlStr, e2)] := by
    simp only [streamFold, List.foldl_cons, List.foldl_nil, h1, h2, hbad]
    simp [Index.upsert, Index.empty, List.filter_cons, hkeys]
  refine ⟨by rw [loadAll_spec], ?_, ?_, ?_, ?_, ?_⟩
  · rw [loadAll_spec]
    show Index.size (streamFold Index.empty [l1, lbad, l2]) = 2
    rw [hidx]
    rfl
  · rw [loadAll_spec]
    show Index.get (streamFold Index.empty [l1, lbad, l2]) e1.urlStr = some e1
    rw [hidx]
    simp [Index.get, List.find?_cons]
  · rw [loadAll_spec]
    show Index.get (streamFold Index.empty [l1, lbad, l2]) e2.urlStr = some e2
    rw [hidx]
    simp [Index.get, List.find?_cons, hkeys]
  · rw [loadAll_spec]
    show warningsOf ([l1, lbad, l2].map LoadEvent.line) = [pyRstrip lbad]
    simp [warningsOf, warningsOfEvent, h1, h2, hbad, hbadne]
  · intro lines
    rw [loadAll_spec]

theorem malformed_line_skipped_witness :
    Index.size
        ((WebHistory.init ["1 http://a/ x", "bogus", "2 http://b/ y"]).loadAll).index
      = 2 :=
  (malformed_line_skipped "1 http://a/ x" "bogus" "2 http://b/ y"
    ⟨1, ⟨"http://a/"⟩, "x", false⟩ ⟨2, ⟨"http://b/"⟩, "y", false⟩
    (by decide) (by decide) (by decide) (by decide) (by decide)).2.1

/-- The C10 invariant: the flushed count never exceeds the length of the
current session's entry list (`0 ≤` is inherent to the `Nat` embedding;
the source never decrements `_saved_count` except by resetting it to 0
together with `_new_history`). -/
def FlushInv (h : WebHistory) : Prop :=
  h.saved_count ≤ h.new_history.length

instance (h : WebHistory) : Decidable (FlushInv h) := by
  unfold FlushInv; infer_instance

theorem add_url_inv (h : WebHistory) (u : Url) (t : String) (r : Bool)
    (a : Int) (hi : FlushInv h) : FlushInv (h.add_url u t r a) := by
  unfold WebHistory.add_url
  split
  · exact hi
  · split
    · unfold FlushInv at hi ⊢
      simp [WebHistory.add_entry]
      omega
    · exact hi

theorem processLine_inv (h : WebHistory) (l : String) (hi : FlushInv h) :
    FlushInv (h.processLine l) := by
  rw [processLine_eq]
  exact hi

theorem runEvents_inv (evs : List LoadEvent) :
    ∀ h : WebHistory, FlushInv h → FlushInv (h.runEvents evs) := by
  induction evs with
  | nil => intro h hi; exact hi
  | cons ev evs ih =>
    intro h hi
    cases ev with
    | line l => exact ih (h.processLine l) (processLine_inv h l hi)
    | add u t r a => exact ih (h.add_url u t r a) (add_url_inv h u t r a hi)

theorem finish_inv (h : WebHistory) (hi : FlushInv h) : FlushInv h.asyncReadFinish := by
  rw [asyncReadFinish_spec]
  unfold FlushInv at hi ⊢
  simp
  omega

/-- Claim C10: at every reachable state, `saved_count ≤ |new_history|`:
the invariant holds after construction and is preserved by `add_url`,
`add_from_tab`, a full `async_read` run, `save` and `clear`; and `save`
appends exactly the suffix of `new_history` past `saved_count`, so
already-flushed entries are never re-appended. -/
theorem flushed_count_invariant :
    (∀ disk : List String, FlushInv (WebHistory.init disk))
      ∧ (∀ (h : WebHistory) (u : Url) (t : String) (r : Bool) (a : Int),
           FlushInv h → FlushInv (h.add_url u t r a))
      ∧ (∀ (h : WebHistory) (u v : Url) (t : String) (n : Int),
           FlushInv h → FlushInv (h.add_from_tab u v t n))
      ∧ (∀ (h : WebHistory) (evs : List LoadEvent),
           FlushInv h → FlushInv (h.asyncReadRun evs))
      ∧ (∀ h : WebHistory, FlushInv h → FlushInv h.save)
      ∧ (∀ (h : WebHistory) (f : Bool), FlushInv h → FlushInv (h.clear f))
      ∧ (∀ h : WebHistory,
           h.save.lineparser.data
             = h.lineparser.data
                 ++ (h.new_history.drop h.saved_count).map Entry.encode) := by
  refine ⟨?_, ?_, ?_, ?_, ?_, ?_, ?_⟩
  · intro disk
    exact Nat.le_refl 0
  · intro h u t r a hi
    exact add_url_inv h u t r a hi
  · intro h u v t n hi
    unfold WebHistory.add_from_tab
    split
    · exact hi
    · split
      · exact hi
      · split
        · exact add_url_inv _ u t false n (add_url_inv _ v t true n hi)
        · exact add_url_inv _ u t false n hi
  · intro h evs hi
    unfold WebHistory.asyncReadRun
    split
    · exact hi
    · refine finish_inv _ (runEvents_inv evs _ ?_)
      unfold WebHistory.asyncReadStart
      split
      · exact hi
      · exact hi
  · intro h hi
    exact Nat.le_refl _
  · intro h f hi
    unfold WebHistory.clear
    split
    · exact Nat.le_refl 0
    · exact hi
  · intro h
    rfl

theorem flushed_count_invariant_witness :
    FlushInv (WebHistory.init []) ∧ FlushInv ((WebHistory.init []).save) :=
  ⟨flushed_count_invariant.1 [],
   flushed_count_invariant.2.2.2.2.1 (WebHistory.init []) (by decide)⟩

/-- Claim C2, counterexample: the round trip fails as stated for valid
entries.  A title with a leading space loses that space (Python's
`split(maxsplit=2)` consumes the whole whitespace run before the title),
and a negative integer atime fails to decode at all (its minus sign is
parsed as the flag separator, yielding invalid flags). -/
theorem entry_roundtrip_counterexample :
    Entry.fromStr
        (Entry.encode ⟨123, ⟨"http://example.com/"⟩, " x", false⟩)
        ≠ Except.ok ⟨123, ⟨"http://example.com/"⟩, " x", false⟩
      ∧ Entry.fromStr
          (Entry.encode ⟨-5, ⟨"http://example.com/"⟩, "ok", false⟩)
          ≠ Except.ok ⟨-5, ⟨"http://example.com/"⟩, "ok", false⟩ := by
  constructor
  · decide
  · decide

theorem entry_roundtrip_witness :
    Entry.fromStr
        (Entry.encode ⟨12345, ⟨"http://example.com/"⟩, "My Title", true⟩)
      = Except.ok ⟨12345, ⟨"http://example.com/"⟩, "My Title", true⟩ :=
  entry_roundtrip ⟨12345, ⟨"http://example.com/"⟩, "My Title", true⟩
    (by decide) (by decide)
    (by
      intro c hc
      have h2 : some 'M' = some c := hc
      injection h2 with h3
      rw [← h3]
      decide)
